import Mathlib

/-!
# PolitiSight-India: verified shallow embedding

This file embeds the logic of the PolitiSight-India web application
(report generation service, grounding-source handling, chat streaming
state machine, and localStorage-backed history store) and proves the
testable properties its specification states about them.

The application persists its history by `JSON.jstringify`/`JSON.parse`
on a single localStorage key, so the embedding includes an executable
model of the JSON value space, of serialization and of parsing, together
with a parse-print round-trip theorem. JSON numbers are modelled as
natural numbers (the application only ever stores integral timestamps
and chart values; floating point is outside the model). `JSON.parse`
keeps the last value when a document repeats an object key; documents
produced by `JSON.jstringify` of JavaScript values never repeat a key,
which the well-formedness predicate `Json.wf` captures.
-/

/-- The JSON value space: the shapes `JSON.parse` can produce and
`JSON.jstringify` consumes.  Object fields keep their insertion order,
as JavaScript objects do. -/
inductive Json where
  | jnull : Json
  | jbool (flag : Bool) : Json
  | jnum (value : Nat) : Json
  | jstr (content : String) : Json
  | jarr (items : List Json) : Json
  | jobj (entries : List (String × Json)) : Json
deriving Repr

/-! ## Decimal digits (used by `JSON.jstringify` for numbers and by
`Number.prototype.toString` for the chat message ids) -/

/-- One digit as a character; defers to core `Nat.digitChar`. -/
def digitOf (n : Nat) : Char := Nat.digitChar n

/-- Big-endian decimal digits of `n`, with explicit fuel so the
definition is structural and evaluates inside the kernel. -/
def natDigitsAux : Nat → Nat → List Char → List Char
  | 0, _, acc => acc
  | fuel + 1, n, acc =>
      if n < 10 then digitOf n :: acc
      else natDigitsAux fuel (n / 10) (digitOf (n % 10) :: acc)

/-- Big-endian decimal digits of `n` (never empty; `0` prints `"0"`). -/
def natDigits (n : Nat) : List Char := natDigitsAux (n + 1) n []

/-- Models `Number.prototype.toString` on the integers the app feeds it. -/
def natToString (n : Nat) : String := ⟨natDigits n⟩

/-! ## JSON string escaping, as `JSON.jstringify` performs it -/

/-- How `JSON.jstringify` emits one character of a string: double quote
and backslash are escaped, the five short control escapes are used where
they exist, other control characters become `\u00XX`, and everything
else is emitted literally. -/
def escapeChar (c : Char) : List Char :=
  if c = '"' then ['\\', '"']
  else if c = '\\' then ['\\', '\\']
  else if c = '\x08' then ['\\', 'b']
  else if c = '\t' then ['\\', 't']
  else if c = '\n' then ['\\', 'n']
  else if c = '\x0c' then ['\\', 'f']
  else if c = '\r' then ['\\', 'r']
  else if c.toNat < 32 then
    ['\\', 'u', '0', '0', digitOf (c.toNat / 16), digitOf (c.toNat % 16)]
  else [c]

/-- The escaped body of a JSON string literal. -/
def escBody : List Char → List Char
  | [] => []
  | c :: cs => escapeChar c ++ escBody cs

/-- A full JSON string literal, quotes included. -/
def printQString (s : String) : List Char := '"' :: escBody s.data ++ ['"']

/-! ## The printer: `JSON.jstringify` (compact form, no whitespace) -/

mutual

/-- `JSON.jstringify` of one value (compact, exactly the form the app
writes to localStorage). -/
def printJson : Json → List Char
  | .jnull => ['n', 'u', 'l', 'l']
  | .jbool true => ['t', 'r', 'u', 'e']
  | .jbool false => ['f', 'a', 'l', 's', 'e']
  | .jnum n => natDigits n
  | .jstr s => printQString s
  | .jarr xs => '[' :: printElems xs ++ [']']
  | .jobj fs => '{' :: printFields fs ++ ['}']

/-- Comma-separated array elements. -/
def printElems : List Json → List Char
  | [] => []
  | [x] => printJson x
  | x :: y :: xs => printJson x ++ ',' :: printElems (y :: xs)

/-- Comma-separated `"key":value` object fields. -/
def printFields : List (String × Json) → List Char
  | [] => []
  | [(k, v)] => printQString k ++ ':' :: printJson v
  | (k, v) :: f :: fs => printQString k ++ ':' :: printJson v ++ ',' :: printFields (f :: fs)

end

/-- `JSON.jstringify` as a `String`-valued function. -/
def jsonStringify (j : Json) : String := ⟨printJson j⟩

/-! ## Well-formedness: no repeated object keys

A JavaScript object cannot hold the same key twice, so every value the
application ever serializes satisfies this predicate. -/

/-- `true` when `k` does not occur among the keys of `fs`. -/
def keyFresh (k : String) : List (String × Json) → Bool
  | [] => true
  | (k', _) :: fs => !(k' == k) && keyFresh k fs

mutual

/-- No object anywhere in the value repeats a key. -/
def Json.wf : Json → Bool
  | .jnull => true
  | .jbool _ => true
  | .jnum _ => true
  | .jstr _ => true
  | .jarr xs => Json.wfList xs
  | .jobj fs => Json.wfFields fs

/-- `Json.wf` on every element. -/
def Json.wfList : List Json → Bool
  | [] => true
  | x :: xs => Json.wf x && Json.wfList xs

/-- Keys pairwise distinct and every value well-formed. -/
def Json.wfFields : List (String × Json) → Bool
  | [] => true
  | (k, v) :: fs => keyFresh k fs && Json.wf v && Json.wfFields fs

end

/-! ## Object field update with JavaScript semantics

Setting a key that exists overwrites its value in place (the key keeps
its position); a new key is appended.  This is both how object spread
followed by explicit keys behaves and how `JSON.parse` resolves a
repeated key. -/

/-- JavaScript object field assignment. -/
def insertField : List (String × Json) → String → Json → List (String × Json)
  | [], k, v => [(k, v)]
  | (k', v') :: fs, k, v =>
      if k' == k then (k', v) :: fs else (k', v') :: insertField fs k v

/-- Builds an object field list by assigning the fields left to right,
which is what `JSON.parse` does when a document repeats a key (the last
value wins, the key keeps its first position). -/
def collapseFieldsAux : List (String × Json) → List (String × Json) → List (String × Json)
  | acc, [] => acc
  | acc, (k, v) :: fs => collapseFieldsAux (insertField acc k v) fs

/-- See `collapseFieldsAux`; starts from the empty object. -/
def collapseFields (fs : List (String × Json)) : List (String × Json) :=
  collapseFieldsAux [] fs

/-- Lookup in a field list, first match. -/
def jsonGetFieldAux : List (String × Json) → String → Option Json
  | [], _ => none
  | (k', v) :: fs, k => if k' == k then some v else jsonGetFieldAux fs k

/-- Field lookup: `o[k]`, `none` when absent or `o` not an object. -/
def jsonGetField : Json → String → Option Json
  | .jobj fs, k => jsonGetFieldAux fs k
  | _, _ => none

/-! ## The parser: `JSON.parse`

Recursive descent over the character list.  The value-level recursion
carries fuel (needed only for nesting depth, so any fuel beyond the
input length is enough); the character-level loops are structural.  The
grammar covers exactly what the printer emits — in particular numbers
are unsigned integers and no inter-token whitespace is accepted; the
application itself only ever parses strings it produced with
`JSON.jstringify`, plus arbitrary corrupt input, which must simply be
rejected. -/

/-- Is `c` a decimal digit? -/
def isDigitChar (c : Char) : Bool := '0' ≤ c && c ≤ '9'

/-- Numeric value of a decimal digit character. -/
def digitValOf (c : Char) : Nat := c.toNat - 48

/-- Value of a hexadecimal digit character (both letter cases accepted,
matching `JSON.parse`), if it is one; stated on code points. -/
def hexVal? (c : Char) : Option Nat :=
  if 48 ≤ c.toNat ∧ c.toNat ≤ 57 then some (c.toNat - 48)
  else if 97 ≤ c.toNat ∧ c.toNat ≤ 102 then some (c.toNat - 87)
  else if 65 ≤ c.toNat ∧ c.toNat ≤ 70 then some (c.toNat - 55)
  else none

/-- Accumulating decimal number parser: consumes leading digits. -/
def parseNatAcc : Nat → List Char → Nat × List Char
  | acc, [] => (acc, [])
  | acc, c :: cs =>
      if isDigitChar c then parseNatAcc (acc * 10 + digitValOf c) cs
      else (acc, c :: cs)

/-- Prepends a character to the content of a string-parse result. -/
def consCont (c : Char) : Option (List Char × List Char) → Option (List Char × List Char)
  | none => none
  | some (s, r) => some (c :: s, r)

/-- Parses the body of a JSON string literal (after the opening quote):
returns the unescaped content and the input after the closing quote. -/
def parseStringBody : List Char → Option (List Char × List Char)
  | [] => none
  | c :: cs =>
      if c = '"' then some ([], cs)
      else if c = '\\' then
        match cs with
        | [] => none
        | e :: cs' =>
            if e = '"' then consCont '"' (parseStringBody cs')
            else if e = '\\' then consCont '\\' (parseStringBody cs')
            else if e = '/' then consCont '/' (parseStringBody cs')
            else if e = 'b' then consCont '\x08' (parseStringBody cs')
            else if e = 't' then consCont '\t' (parseStringBody cs')
            else if e = 'n' then consCont '\n' (parseStringBody cs')
            else if e = 'f' then consCont '\x0c' (parseStringBody cs')
            else if e = 'r' then consCont '\r' (parseStringBody cs')
            else if e = 'u' then
              match cs' with
              | h1 :: h2 :: h3 :: h4 :: cs'' =>
                  match hexVal? h1, hexVal? h2, hexVal? h3, hexVal? h4 with
                  | some a, some b, some c2, some d =>
                      consCont (Char.ofNat (((a * 16 + b) * 16 + c2) * 16 + d))
                        (parseStringBody cs'')
                  | _, _, _, _ => none
              | _ => none
            else none
      else if c.toNat < 32 then none
      else consCont c (parseStringBody cs)

/-- Checks that the input starts with the given literal characters and
returns the remainder. -/
def expectChars : List Char → List Char → Option (List Char)
  | [], cs => some cs
  | _ :: _, [] => none
  | p :: ps, c :: cs => if c = p then expectChars ps cs else none

mutual

/-- Parses one JSON value; `fuel` bounds nesting depth. -/
def parseValue : Nat → List Char → Option (Json × List Char)
  | 0, _ => none
  | _ + 1, [] => none
  | fuel + 1, c :: cs =>
      if c = 'n' then (expectChars ['u', 'l', 'l'] cs).map fun r => (Json.jnull, r)
      else if c = 't' then (expectChars ['r', 'u', 'e'] cs).map fun r => (Json.jbool true, r)
      else if c = 'f' then (expectChars ['a', 'l', 's', 'e'] cs).map fun r => (Json.jbool false, r)
      else if c = '"' then (parseStringBody cs).map fun p => (Json.jstr ⟨p.1⟩, p.2)
      else if c = '[' then
        if cs.head? = some ']' then some (Json.jarr [], cs.tail)
        else (parseElems fuel cs).map fun p => (Json.jarr p.1, p.2)
      else if c = '{' then
        if cs.head? = some '}' then some (Json.jobj [], cs.tail)
        else (parseFields fuel cs).map fun p => (Json.jobj (collapseFields p.1), p.2)
      else if isDigitChar c then
        some (Json.jnum (parseNatAcc (digitValOf c) cs).1, (parseNatAcc (digitValOf c) cs).2)
      else none

/-- Parses one or more comma-separated values up to the closing `]`. -/
def parseElems : Nat → List Char → Option (List Json × List Char)
  | 0, _ => none
  | fuel + 1, cs =>
      (parseValue fuel cs).bind fun p =>
        if p.2.head? = some ',' then
          (parseElems fuel p.2.tail).map fun q => (p.1 :: q.1, q.2)
        else if p.2.head? = some ']' then some ([p.1], p.2.tail)
        else none

/-- Parses one or more comma-separated `"key":value` fields up to the
closing `}`. -/
def parseFields : Nat → List Char → Option (List (String × Json) × List Char)
  | 0, _ => none
  | fuel + 1, cs =>
      if cs.head? = some '"' then
        (parseStringBody cs.tail).bind fun kp =>
          if kp.2.head? = some ':' then
            (parseValue fuel kp.2.tail).bind fun vp =>
              if vp.2.head? = some ',' then
                (parseFields fuel vp.2.tail).map fun q => ((⟨kp.1⟩, vp.1) :: q.1, q.2)
              else if vp.2.head? = some '}' then some ([(⟨kp.1⟩, vp.1)], vp.2.tail)
              else none
          else none
      else none

end

/-- `JSON.parse`: succeeds only when the whole input is consumed. -/
def jsonParse (s : String) : Option Json :=
  match parseValue (s.data.length + 1) s.data with
  | some (j, []) => some j
  | _ => none

/-! ## Generic string utilities the service uses -/

/-- Whitespace for `String.prototype.trim` (the characters the app can
actually encounter). -/
def isWsChar (c : Char) : Bool := c = ' ' || c = '\t' || c = '\n' || c = '\r'

/-- Drops leading whitespace. -/
def trimLeftChars : List Char → List Char
  | [] => []
  | c :: cs => if isWsChar c then trimLeftChars cs else c :: cs

/-- Models `String.prototype.trim`. -/
def trimStr (s : String) : String :=
  ⟨(trimLeftChars (trimLeftChars s.data.reverse).reverse)⟩

/-- Models `String.prototype.replace(pat, '')` with a global literal
pattern: removes every non-overlapping occurrence, scanning left to
right.  Fuel keeps the recursion structural; `length input` is enough. -/
def removeAllAux (pat : List Char) : Nat → List Char → List Char
  | _, [] => []
  | 0, cs => cs
  | fuel + 1, c :: cs =>
      if pat.isPrefixOf (c :: cs) && !pat.isEmpty then
        removeAllAux pat fuel (List.drop (pat.length - 1) cs)
      else c :: removeAllAux pat fuel cs

/-- Removes every occurrence of `pat` from `s`. -/
def removeAll (pat s : String) : String :=
  ⟨removeAllAux pat.data s.data.length s.data⟩

/-! ## geminiService: data shapes of the model response -/

/-- The `web` part of a grounding chunk; both fields are optional in
the SDK response. -/
structure WebInfo where
  uri : Option String
  title : Option String

/-- One grounding chunk (`chunk.web` may be absent). -/
structure GroundingChunk where
  web : Option WebInfo

/-- A cited source, as `types.ts` declares it. -/
structure GroundingSource where
  title : String
  uri : String
deriving DecidableEq, Repr

/-- The part of `generateContent`'s response the service reads:
`response.text` and the optional chain
`response.candidates?.[0]?.groundingMetadata?.groundingChunks`
(collapsed here into one optional list). -/
structure ModelResponse where
  text : Option String
  groundingChunks : Option (List GroundingChunk)

/-- JavaScript truthiness of an optional string: absent and `""` are
both falsy. -/
def truthyStr : Option String → Bool
  | none => false
  | some s => !(s == "")

/-! ## geminiService: the functions -/

/-- The message of the error `getAiClient` throws when
`process.env.API_KEY` is absent. -/
def apiKeyMissingMsg : String := "API Key is missing. Please set process.env.API_KEY."

/-- The message of the error `generatePoliticalReport`'s catch block
rethrows on any failure inside the try. -/
def genericFailureMsg : String := "Failed to generate analysis. Please try again."

/-- A chat session as `createChatSession` configures it: the system
instruction with the optional context block spliced in. -/
structure ChatSession where
  systemInstruction : String

/-- `createChatSession`: calls `getAiClient` (which throws when the key
is missing) and otherwise creates a chat whose system instruction is
the fixed persona text with the optional context block spliced in (the
persona prose is abbreviated here; no stated property depends on its
wording, only on the throw-on-missing-key behaviour). -/
def createChatSession (apiKey : Option String) (context : Option String) :
    Except String ChatSession :=
  match apiKey with
  | none => Except.error apiKeyMissingMsg
  | some _ =>
      Except.ok { systemInstruction :=
        "You are a helpful and knowledgeable AI political assistant" ++
        (match context with
         | some ctx => if ctx == "" then "" else "\nCONTEXT: " ++ ctx
         | none => "") }

/-- One iteration of the source-extraction `forEach`: pushes
`{title, uri}` when the chunk's `web.uri` and `web.title` are both
truthy, and leaves the array alone otherwise. -/
def extractStep (acc : List GroundingSource) (c : GroundingChunk) : List GroundingSource :=
  match c.web with
  | some w =>
      if truthyStr w.uri && truthyStr w.title then
        acc ++ [{ title := w.title.getD "", uri := w.uri.getD "" }]
      else acc
  | none => acc

/-- The source-extraction loop of `generatePoliticalReport`: pushes
`{title, uri}` for every chunk whose `web.uri` and `web.title` are both
truthy, in chunk order, and silently skips every other chunk. -/
def extractSources (chunks : Option (List GroundingChunk)) : List GroundingSource :=
  match chunks with
  | none => []
  | some cs => cs.foldl extractStep []

/-- The contribution of one grounding chunk: the source it pushes, or
`none` when its `web`, `web.uri` or `web.title` is absent or falsy. -/
def chunkSource (c : GroundingChunk) : Option GroundingSource :=
  match c.web with
  | some w =>
      if truthyStr w.uri && truthyStr w.title then
        some { title := w.title.getD "", uri := w.uri.getD "" }
      else none
  | none => none

/-- One `Map.prototype.set`: overwrites the value in place when the key
exists, appends otherwise. -/
def mapInsert : List (String × GroundingSource) → String → GroundingSource →
    List (String × GroundingSource)
  | [], k, v => [(k, v)]
  | (k', v') :: rest, k, v =>
      if k' == k then (k', v) :: rest else (k', v') :: mapInsert rest k v

/-- `Array.from(new Map(sources.map(item => [item.uri, item])).values())`:
keys a Map by URI (later entries overwrite earlier ones) and takes the
values in insertion order. -/
def dedupeByUri (sources : List GroundingSource) : List GroundingSource :=
  (sources.foldl (fun m item => mapInsert m item.uri item) []).map Prod.snd

/-- `responseText.replace(/```json/g, '').replace(/```/g, '').trim()`. -/
def stripCodeFences (s : String) : String :=
  trimStr (removeAll "```" (removeAll "```json" s))

/-- The fields of the parsed payload, as object spread reads them
(spread of a non-object JSON value contributes no fields). -/
def toObjFields : Json → List (String × Json)
  | .jobj fs => fs
  | _ => []

/-- `GroundingSource`s as the JSON value they form inside the report. -/
def sourcesToJson (sources : List GroundingSource) : Json :=
  Json.jarr (sources.map (fun s =>
    Json.jobj [("title", Json.jstr s.title), ("uri", Json.jstr s.uri)]))

/-- `{...data, id: crypto.randomUUID(), createdAt: Date.now(), sources}`. -/
def assembleReport (data : Json) (freshId : String) (now : Nat)
    (sources : List GroundingSource) : Json :=
  Json.jobj (insertField (insertField (insertField (toObjFields data)
    "id" (Json.jstr freshId)) "createdAt" (Json.jnum now))
    "sources" (sourcesToJson sources))

/-- A progress stage reported through `onProgress`. -/
inductive Stage where
  | researching
  | analyzing
  | formatting
deriving DecidableEq, Repr

/-- What one call of `generatePoliticalReport` did: its outcome, the
`onProgress` calls in order, and how many model requests it issued. -/
structure GenResult where
  result : Except String Json
  stages : List Stage
  requests : Nat

/-- `generatePoliticalReport`.  The external world enters through
`call` (the settled `generateContent` promise: a thrown error or the
response), `freshId` (`crypto.randomUUID()`) and `now` (`Date.now()`).
The function first calls `getAiClient` — throwing the missing-key error
before any request when the key is absent — then reports the
`researching` and `analyzing` stages, issues the single request, and
inside one try/catch reads `response.text` (throwing when falsy),
strips code fences, parses the JSON, extracts and dedupes grounding
sources and assembles the report; any failure in the try is caught and
rethrown as the one generic failure message. -/
def generatePoliticalReport (apiKey : Option String) (_topic : String)
    (_historyContext : List String) (call : Except String ModelResponse)
    (freshId : String) (now : Nat) : GenResult :=
  match apiKey with
  | none => { result := Except.error apiKeyMissingMsg, stages := [], requests := 0 }
  | some _ =>
      match call with
      | Except.error _ =>
          { result := Except.error genericFailureMsg
            stages := [Stage.researching, Stage.analyzing]
            requests := 1 }
      | Except.ok response =>
          if truthyStr response.text then
            match jsonParse (stripCodeFences (response.text.getD "")) with
            | some data =>
                { result := Except.ok (assembleReport data freshId now
                    (dedupeByUri (extractSources response.groundingChunks)))
                  stages := [Stage.researching, Stage.analyzing, Stage.formatting]
                  requests := 1 }
            | none =>
                { result := Except.error genericFailureMsg
                  stages := [Stage.researching, Stage.analyzing, Stage.formatting]
                  requests := 1 }
          else
            { result := Except.error genericFailureMsg
              stages := [Stage.researching, Stage.analyzing, Stage.formatting]
              requests := 1 }

/-! ## App.tsx: the history store -/

/-- `saveToHistory`: prepends the new report and re-serializes the
whole collection; returns the new in-memory history and the string
written to `localStorage['politisight_history']`. -/
def saveToHistory (newReport : Json) (history : List Json) : List Json × String :=
  (newReport :: history, jsonStringify (Json.jarr (newReport :: history)))

/-- `r.id !== id`: true exactly when the report's `id` field is the
given string (any other value, or an absent field, differs under strict
inequality). -/
def idMatches (r : Json) (id : String) : Bool :=
  match jsonGetField r "id" with
  | some (Json.jstr s) => s == id
  | _ => false

/-- `deleteFromHistory`: keeps the reports whose `id` differs and
re-serializes; returns the new in-memory history and the stored string. -/
def deleteFromHistory (id : String) (history : List Json) : List Json × String :=
  (history.filter (fun r => !idMatches r id),
   jsonStringify (Json.jarr (history.filter (fun r => !idMatches r id))))

/-- The mount effect of `App`: reads `localStorage['politisight_history']`
(`none` models a missing key) and, when the value is truthy, tries to
parse it, leaving the initial empty history in place when parsing
throws. -/
def loadHistoryEffect : Option String → Json
  | none => Json.jarr []
  | some s =>
      if s == "" then Json.jarr []
      else
        match jsonParse s with
        | some j => j
        | none => Json.jarr []

/-! ## ChatBot.tsx: session effect and streaming send -/

/-- One chat message, as `types.ts` declares it (`timestamp` as a
numeric instant). -/
structure ChatMessage where
  id : String
  role : String
  text : String
  timestamp : Nat
deriving DecidableEq, Repr

/-- The report fields the `ChatBot` component reads. -/
structure ReportInfo where
  id : String
  title : String
  executiveSummary : String
  insightTexts : List String
deriving DecidableEq, Repr

/-- The context block the session effect assembles from the active
report and the recent history titles. -/
def buildContext (currentReport : Option ReportInfo) (historyTitles : List String) : String :=
  (match currentReport with
   | some r => "User is currently viewing a report titled: \"" ++ r.title ++
       "\". Executive Summary: " ++ r.executiveSummary ++ ". Key Insights: " ++
       String.intercalate "; " r.insightTexts ++ ". "
   | none => "") ++
  (match historyTitles with
   | [] => ""
   | t :: ts => "User has previously analyzed: " ++
       String.intercalate ", " (List.take 3 (t :: ts)) ++ ".")

/-- The greeting the effect synthesizes when the message list is empty:
context-aware when a report is active, generic otherwise. -/
def greetingMessage (currentReport : Option ReportInfo) : ChatMessage :=
  { id := "init"
    role := "model"
    text :=
      match currentReport with
      | some r => "I'm here to help you dig deeper into \"" ++ r.title ++
          "\". What would you like to know?"
      | none => "Namaste! I'm your PolitiSight assistant. Ask me about Indian politics or start a new analysis."
    timestamp := 0 }

/-- The `useEffect` that (re)creates the chat session: builds the
context, recreates the session, and adds the one greeting message only
when the message list is empty; when `createChatSession` throws (no API
key) the catch leaves both the session and the messages untouched. -/
def initChatEffect (apiKey : Option String) (currentReport : Option ReportInfo)
    (historyTitles : List String) (session : Option ChatSession)
    (messages : List ChatMessage) : Option ChatSession × List ChatMessage :=
  match createChatSession apiKey (some (buildContext currentReport historyTitles)) with
  | Except.error _ => (session, messages)
  | Except.ok s =>
      (some s, if messages.isEmpty then [greetingMessage currentReport] else messages)

/-- The UI state `handleSend` works on. -/
structure ChatState where
  messages : List ChatMessage
  input : String
  isTyping : Bool
deriving DecidableEq, Repr

/-- The apology message appended when the send or the stream throws. -/
def chatErrorMsg : String := "I'm sorry, I encountered an error. Please try again."

/-- One arrived stream chunk applied to the accumulated response and
the message list: a falsy `chunk.text` (absent or empty) changes
nothing; otherwise the delta is appended to the accumulator and the
placeholder message with the bot id is updated in place to the
accumulated text. -/
def streamStep (botMsgId : String) (st : String × List ChatMessage)
    (chunkText : Option String) : String × List ChatMessage :=
  match chunkText with
  | none => st
  | some t =>
      if t == "" then st
      else
        ((st.1 ++ t),
         st.2.map (fun m => if m.id == botMsgId then { m with text := st.1 ++ t } else m))

/-- `handleSend`.  A blank (after trim) input or a missing session
returns the state unchanged.  Otherwise the user message (id
`Date.now().toString()`) is appended and the input cleared; if the
`sendMessageStream` call itself rejects, the catch appends the apology
message; otherwise the placeholder bot message (id
`(Date.now()+1).toString()`) is appended and each chunk of the stream
is folded in with `streamStep`.  The finally clause clears the typing
flag. -/
def handleSend (st : ChatState) (now : Nat) (sessionActive : Bool)
    (stream : Except String (List (Option String))) : ChatState :=
  if trimStr st.input == "" || !sessionActive then st
  else
    match stream with
    | Except.error _ =>
        { messages := (st.messages ++
            [{ id := natToString now, role := "user", text := st.input, timestamp := now }]) ++
            [{ id := natToString now, role := "model", text := chatErrorMsg, timestamp := now }]
          input := ""
          isTyping := false }
    | Except.ok chunks =>
        { messages :=
            (chunks.foldl (streamStep (natToString (now + 1)))
              ("", (st.messages ++
                [{ id := natToString now, role := "user", text := st.input, timestamp := now }]) ++
                [{ id := natToString (now + 1), role := "model", text := "", timestamp := now }])).2
          input := ""
          isTyping := false }

/-- Concatenation of a list of strings in order (the accumulated text
of a completed stream). -/
def concatList : List String → String
  | [] => ""
  | s :: rest => s ++ concatList rest

/-! ## Fuel measure for the round-trip proof -/

mutual

/-- Fuel sufficient for `parseValue` to parse the printed form of a value. -/
def fuelV : Json → Nat
  | .jnull => 1
  | .jbool _ => 1
  | .jnum _ => 1
  | .jstr _ => 1
  | .jarr xs => 1 + fuelElems xs
  | .jobj fs => 1 + fuelFields fs

/-- Fuel sufficient for `parseElems` on a printed element list. -/
def fuelElems : List Json → Nat
  | [] => 1
  | x :: xs => 1 + max (fuelV x) (fuelElems xs)

/-- Fuel sufficient for `parseFields` on a printed field list. -/
def fuelFields : List (String × Json) → Nat
  | [] => 1
  | (_, v) :: fs => 1 + max (fuelV v) (fuelFields fs)

end

/-- The input does not start with a digit (so a number parse just
before it stops exactly there). -/
def noDigitHead : List Char → Bool
  | [] => true
  | c :: _ => !isDigitChar c

/-- The per-value round-trip statement: the parser recovers a printed
well-formed value and leaves exactly the trailing input. -/
def PV (j : Json) : Prop :=
  Json.wf j = true → ∀ f, fuelV j ≤ f → ∀ rest, noDigitHead rest = true →
    parseValue f (printJson j ++ rest) = some (j, rest)

/-! # Proofs

## Decimal digits -/

theorem digitOf_isDigit {d : Nat} (h : d < 10) : isDigitChar (digitOf d) = true := by
  interval_cases d <;> decide

theorem digitValOf_digitOf {d : Nat} (h : d < 10) : digitValOf (digitOf d) = d := by
  interval_cases d <;> decide

theorem natDigitsAux_acc (fuel n : Nat) (acc : List Char) :
    natDigitsAux fuel n acc = natDigitsAux fuel n [] ++ acc := by
  induction fuel generalizing n acc with
  | zero => simp [natDigitsAux]
  | succ fuel ih =>
      simp only [natDigitsAux]
      split
      · simp
      · rw [ih (n / 10) (digitOf (n % 10) :: acc), ih (n / 10) [digitOf (n % 10)]]
        simp

theorem natDigitsAux_fuel (n : Nat) : ∀ (f₁ f₂ : Nat) (acc : List Char),
    n < f₁ → n < f₂ → natDigitsAux f₁ n acc = natDigitsAux f₂ n acc := by
  induction n using Nat.strong_induction_on with
  | _ n ih =>
      intro f₁ f₂ acc h₁ h₂
      obtain ⟨g₁, rfl⟩ : ∃ g, f₁ = g + 1 := ⟨f₁ - 1, by omega⟩
      obtain ⟨g₂, rfl⟩ : ∃ g, f₂ = g + 1 := ⟨f₂ - 1, by omega⟩
      simp only [natDigitsAux]
      split
      · rfl
      · exact ih (n / 10) (by omega) g₁ g₂ _ (by omega) (by omega)

theorem natDigits_all_digits (n : Nat) : ∀ c ∈ natDigits n, isDigitChar c = true := by
  unfold natDigits
  generalize hf : n + 1 = fuel
  have hn : n < fuel := by omega
  clear hf
  induction fuel generalizing n with
  | zero => omega
  | succ fuel ih =>
      simp only [natDigitsAux]
      split
      · intro c hc
        simp at hc
        subst hc
        exact digitOf_isDigit (by omega)
      · rw [natDigitsAux_acc]
        intro c hc
        rcases List.mem_append.mp hc with h | h
        · have : n / 10 < fuel := by omega
          exact ih (n / 10) this c h
        · simp at h
          subst h
          exact digitOf_isDigit (Nat.mod_lt _ (by omega))

theorem natDigits_readback (n : Nat) :
    List.foldl (fun a c => a * 10 + digitValOf c) 0 (natDigits n) = n := by
  unfold natDigits
  induction n using Nat.strong_induction_on with
  | _ n ih =>
      simp only [natDigitsAux]
      split
      · simp only [List.foldl]
        rw [digitValOf_digitOf (by omega)]
        omega
      · rw [natDigitsAux_acc, List.foldl_append]
        rw [natDigitsAux_fuel (n / 10) n (n / 10 + 1) [] (by omega) (by omega)]
        rw [ih (n / 10) (by omega)]
        simp only [List.foldl]
        rw [digitValOf_digitOf (Nat.mod_lt _ (by omega))]
        omega

theorem natDigits_ne_nil (n : Nat) : natDigits n ≠ [] := by
  unfold natDigits
  simp only [natDigitsAux]
  split
  · simp
  · rw [natDigitsAux_acc]
    simp

theorem natToString_injective (a b : Nat) (h : natToString a = natToString b) : a = b := by
  have hd : natDigits a = natDigits b := congrArg String.data h
  have ha := natDigits_readback a
  have hb := natDigits_readback b
  rw [hd] at ha
  omega

theorem parseNatAcc_spec (ds : List Char) : ∀ (acc : Nat) (rest : List Char),
    (∀ c ∈ ds, isDigitChar c = true) →
    (∀ c cs, rest = c :: cs → isDigitChar c = false) →
    parseNatAcc acc (ds ++ rest) =
      (List.foldl (fun a c => a * 10 + digitValOf c) acc ds, rest) := by
  induction ds with
  | nil =>
      intro acc rest _ hrest
      match rest with
      | [] => rfl
      | c :: cs => simp [parseNatAcc, hrest c cs rfl]
  | cons d ds ih =>
      intro acc rest hds hrest
      have hd : isDigitChar d = true := hds d (by simp)
      simp only [List.cons_append, parseNatAcc, hd, if_pos, List.append_eq]
      rw [ih _ rest (fun c hc => hds c (by simp [hc])) hrest]
      simp [List.foldl]


theorem hexVal?_digitOf {d : Nat} (h : d < 16) : hexVal? (digitOf d) = some d := by
  interval_cases d <;> decide

theorem parseStringBody_escapeChar (c : Char) (tail : List Char) :
    parseStringBody (escapeChar c ++ tail) = consCont c (parseStringBody tail) := by
  unfold escapeChar
  split
  · rename_i h
    subst h
    conv_lhs => rw [parseStringBody.eq_def]
    simp
  · split
    · rename_i h
      subst h
      conv_lhs => rw [parseStringBody.eq_def]
      simp
    · split
      · rename_i h
        subst h
        conv_lhs => rw [parseStringBody.eq_def]
        simp
      · split
        · rename_i h
          subst h
          conv_lhs => rw [parseStringBody.eq_def]
          simp
        · split
          · rename_i h
            subst h
            conv_lhs => rw [parseStringBody.eq_def]
            simp
          · split
            · rename_i h
              subst h
              conv_lhs => rw [parseStringBody.eq_def]
              simp
            · split
              · rename_i h
                subst h
                conv_lhs => rw [parseStringBody.eq_def]
                simp
              · split
                · rename_i hlt
                  have h16a : c.toNat / 16 < 16 := by omega
                  have h16b : c.toNat % 16 < 16 := Nat.mod_lt _ (by omega)
                  simp only [List.cons_append]
                  conv_lhs => rw [parseStringBody.eq_def]
                  simp [hexVal?_digitOf h16a, hexVal?_digitOf h16b,
                    (by decide : hexVal? ('0' : Char) = some 0)]
                  have he : c.toNat / 16 * 16 + c.toNat % 16 = c.toNat := by omega
                  rw [he, Char.ofNat_toNat]
                · rename_i h1 h2 h3 h4 h5 h6 h7 hge
                  simp only [List.cons_append, List.nil_append]
                  conv_lhs => rw [parseStringBody.eq_def]
                  simp [h1, h2]
                  exact fun h => absurd h hge

theorem parseStringBody_escBody (cs : List Char) : ∀ (rest : List Char),
    parseStringBody (escBody cs ++ '"' :: rest) = some (cs, rest) := by
  induction cs with
  | nil =>
      intro rest
      conv_lhs => rw [parseStringBody.eq_def]
      rfl
  | cons c cs ih =>
      intro rest
      show parseStringBody ((escapeChar c ++ escBody cs) ++ '"' :: rest) = _
      rw [List.append_assoc, parseStringBody_escapeChar, ih rest]
      rfl

theorem expectChars_append (ps : List Char) : ∀ (rest : List Char),
    expectChars ps (ps ++ rest) = some rest := by
  induction ps with
  | nil => intro rest; rfl
  | cons p ps ih =>
      intro rest
      simp [expectChars, ih rest]

/-! ## A strong induction principle for the nested `Json` type -/

theorem Json.indStrong (P : Json → Prop)
    (hnull : P Json.jnull)
    (hbool : ∀ b, P (Json.jbool b))
    (hnum : ∀ n, P (Json.jnum n))
    (hstr : ∀ s, P (Json.jstr s))
    (harr : ∀ xs, (∀ x ∈ xs, P x) → P (Json.jarr xs))
    (hobj : ∀ fs, (∀ kv ∈ fs, P kv.2) → P (Json.jobj fs)) :
    ∀ j, P j := by
  have key : ∀ (n : Nat) (j : Json), sizeOf j ≤ n → P j := by
    intro n
    induction n with
    | zero =>
        intro j hj
        cases j <;> simp_arith at hj
    | succ n ih =>
        intro j hj
        cases j with
        | jnull => exact hnull
        | jbool b => exact hbool b
        | jnum m => exact hnum m
        | jstr s => exact hstr s
        | jarr xs =>
            refine harr xs (fun x hx => ih x ?_)
            have h1 := List.sizeOf_lt_of_mem hx
            have h2 : sizeOf (Json.jarr xs) = 1 + sizeOf xs := by simp
            omega
        | jobj fs =>
            refine hobj fs (fun kv hkv => ih kv.2 ?_)
            have h1 := List.sizeOf_lt_of_mem hkv
            have h2 : sizeOf (Json.jobj fs) = 1 + sizeOf fs := by simp
            have h3 : sizeOf kv.2 < sizeOf kv := by
              obtain ⟨a, b⟩ := kv
              simp
            omega
  exact fun j => key (sizeOf j) j (Nat.le_refl _)

/-! ## First characters of printed values -/

theorem digit_ne_brackets (c : Char) (h : isDigitChar c = true) :
    c ≠ ']' ∧ c ≠ '}' := by
  constructor <;> intro heq <;> rw [heq] at h <;> exact absurd h (by decide)

theorem printJson_head (j : Json) :
    ∃ c t, printJson j = c :: t ∧ c ≠ ']' ∧ c ≠ '}' := by
  cases j with
  | jnull => exact ⟨'n', _, rfl, by decide, by decide⟩
  | jbool b => cases b with
      | true => exact ⟨'t', _, rfl, by decide, by decide⟩
      | false => exact ⟨'f', _, rfl, by decide, by decide⟩
  | jnum n =>
      have hne := natDigits_ne_nil n
      have hdig := natDigits_all_digits n
      match hnd : natDigits n with
      | [] => exact absurd hnd hne
      | d :: ds =>
          have hd : isDigitChar d = true := by
            apply hdig
            rw [hnd]
            simp
          obtain ⟨h1, h2⟩ := digit_ne_brackets d hd
          exact ⟨d, ds, by show natDigits n = _; rw [hnd], h1, h2⟩
  | jstr s => exact ⟨'"', _, rfl, by decide, by decide⟩
  | jarr xs => exact ⟨'[', _, rfl, by decide, by decide⟩
  | jobj fs => exact ⟨'{', _, rfl, by decide, by decide⟩

theorem printElems_head (x : Json) (xs : List Json) :
    ∃ c t, printElems (x :: xs) = c :: t ∧ c ≠ ']' ∧ c ≠ '}' := by
  obtain ⟨c, t, hct, h1, h2⟩ := printJson_head x
  cases xs with
  | nil => exact ⟨c, t, by show printJson x = _; rw [hct], h1, h2⟩
  | cons y ys =>
      refine ⟨c, t ++ ',' :: printElems (y :: ys), ?_, h1, h2⟩
      show printJson x ++ ',' :: printElems (y :: ys) = _
      rw [hct]
      simp

/-! ## Key freshness and field collapse -/

theorem keyFresh_iff (k : String) (fs : List (String × Json)) :
    keyFresh k fs = true ↔ ∀ kv ∈ fs, kv.1 ≠ k := by
  induction fs with
  | nil => simp [keyFresh]
  | cons f fs ih =>
      obtain ⟨k', v'⟩ := f
      simp [keyFresh, ih]

theorem insertField_fresh (k : String) (v : Json) (fs : List (String × Json))
    (h : keyFresh k fs = true) : insertField fs k v = fs ++ [(k, v)] := by
  induction fs with
  | nil => rfl
  | cons f fs ih =>
      obtain ⟨k', v'⟩ := f
      simp only [keyFresh, Bool.and_eq_true, Bool.not_eq_true'] at h
      simp only [insertField, h.1, if_neg]
      rw [ih h.2]
      simp

theorem keyFresh_append (k : String) (fs gs : List (String × Json)) :
    keyFresh k (fs ++ gs) = (keyFresh k fs && keyFresh k gs) := by
  induction fs with
  | nil => simp [keyFresh]
  | cons f fs ih =>
      obtain ⟨k', v'⟩ := f
      simp [keyFresh, ih, Bool.and_assoc]

theorem collapseFieldsAux_nodup (fs : List (String × Json)) :
    ∀ (acc : List (String × Json)), Json.wfFields fs = true →
    (∀ kv ∈ fs, keyFresh kv.1 acc = true) →
    collapseFieldsAux acc fs = acc ++ fs := by
  induction fs with
  | nil =>
      intro acc _ _
      simp [collapseFieldsAux]
  | cons f fs ih =>
      intro acc hwf hfresh
      obtain ⟨k, v⟩ := f
      have hwf' : keyFresh k fs = true ∧ Json.wf v = true ∧ Json.wfFields fs = true := by
        have : Json.wfFields ((k, v) :: fs) =
            (keyFresh k fs && Json.wf v && Json.wfFields fs) := rfl
        rw [this] at hwf
        simp at hwf
        tauto
      show collapseFieldsAux (insertField acc k v) fs = acc ++ (k, v) :: fs
      rw [insertField_fresh k v acc (hfresh (k, v) (by simp))]
      rw [ih (acc ++ [(k, v)]) hwf'.2.2 ?_]
      · simp
      · intro kv hkv
        rw [keyFresh_append]
        refine Bool.and_eq_true_iff.mpr ⟨hfresh kv (by simp [hkv]), ?_⟩
        have hne : kv.1 ≠ k := (keyFresh_iff k fs).mp hwf'.1 kv hkv
        simp [keyFresh]
        exact fun h => hne h.symm

theorem collapseFields_nodup (fs : List (String × Json))
    (h : Json.wfFields fs = true) : collapseFields fs = fs := by
  unfold collapseFields
  rw [collapseFieldsAux_nodup fs [] h (fun kv _ => rfl)]
  simp


theorem pv_num (n : Nat) : PV (Json.jnum n) := by
  intro _ f hf rest hrest
  have h1 : 1 ≤ f := le_trans (by rw [show fuelV (Json.jnum n) = 1 from rfl]) hf
  obtain ⟨g, rfl⟩ : ∃ g, f = g + 1 := ⟨f - 1, by omega⟩
  have hne := natDigits_ne_nil n
  have hdig := natDigits_all_digits n
  show parseValue (g + 1) (natDigits n ++ rest) = some (Json.jnum n, rest)
  match hnd : natDigits n with
  | [] => exact absurd hnd hne
  | d :: ds =>
      have hd : isDigitChar d = true := by
        apply hdig
        rw [hnd]
        simp
      have hdall : ∀ c ∈ ds, isDigitChar c = true := by
        intro c hc
        apply hdig
        rw [hnd]
        simp [hc]
      have hrest' : ∀ c cs, rest = c :: cs → isDigitChar c = false := by
        intro c cs hr
        subst hr
        simp [noDigitHead] at hrest
        simp [hrest]
      obtain ⟨hd1, hd2⟩ := digit_ne_brackets d hd
      have hdn : d ≠ 'n' := by intro h; rw [h] at hd; exact absurd hd (by decide)
      have hdt : d ≠ 't' := by intro h; rw [h] at hd; exact absurd hd (by decide)
      have hdf : d ≠ 'f' := by intro h; rw [h] at hd; exact absurd hd (by decide)
      have hdq : d ≠ '"' := by intro h; rw [h] at hd; exact absurd hd (by decide)
      have hdl : d ≠ '[' := by intro h; rw [h] at hd; exact absurd hd (by decide)
      have hdo : d ≠ '{' := by intro h; rw [h] at hd; exact absurd hd (by decide)
      have hpn : parseNatAcc (digitValOf d) (ds ++ rest) =
          (List.foldl (fun a c => a * 10 + digitValOf c) (digitValOf d) ds, rest) := by
        have := parseNatAcc_spec ds (digitValOf d) rest hdall hrest'
        exact this
      have hfold : List.foldl (fun a c => a * 10 + digitValOf c) (digitValOf d) ds = n := by
        have hrb := natDigits_readback n
        rw [hnd] at hrb
        simpa [List.foldl] using hrb
      show parseValue (g + 1) ((d :: ds) ++ rest) = some (Json.jnum n, rest)
      conv_lhs => rw [parseValue.eq_def]
      simp [hdn, hdt, hdf, hdq, hdl, hdo, hd, hpn, hfold]

theorem parseElems_print : ∀ (xs : List Json), (∀ x ∈ xs, PV x) → xs ≠ [] →
    Json.wfList xs = true → ∀ g, fuelElems xs ≤ g → ∀ rest, noDigitHead rest = true →
    parseElems g (printElems xs ++ ']' :: rest) = some (xs, rest) := by
  intro xs
  induction xs with
  | nil => intro _ hne; exact absurd rfl hne
  | cons x xs ih =>
      intro hpv _ hwf g hg rest hrest
      have hwx : Json.wf x = true ∧ Json.wfList xs = true := by
        have he : Json.wfList (x :: xs) = (Json.wf x && Json.wfList xs) := rfl
        rw [he] at hwf
        simpa using hwf
      have hfe : 1 + max (fuelV x) (fuelElems xs) ≤ g := by
        have he : fuelElems (x :: xs) = 1 + max (fuelV x) (fuelElems xs) := rfl
        rw [he] at hg
        exact hg
      obtain ⟨g', rfl⟩ : ∃ g', g = g' + 1 := ⟨g - 1, by omega⟩
      have hfx : fuelV x ≤ g' := by omega
      cases xs with
      | nil =>
          show parseElems (g' + 1) (printJson x ++ ']' :: rest) = some ([x], rest)
          have hv := hpv x (by simp) hwx.1 g' hfx (']' :: rest) rfl
          conv_lhs => rw [parseElems.eq_def]
          simp [hv]
      | cons y ys =>
          show parseElems (g' + 1)
              ((printJson x ++ ',' :: printElems (y :: ys)) ++ ']' :: rest) =
            some (x :: y :: ys, rest)
          have hv := hpv x (by simp) hwx.1 g'
            hfx (',' :: (printElems (y :: ys) ++ ']' :: rest)) rfl
          have hih := ih (fun z hz => hpv z (by simp [hz])) (by simp) hwx.2 g'
            (by
              have he : fuelElems (y :: ys) = 1 + max (fuelV y) (fuelElems ys) := rfl
              have he2 : fuelElems (x :: y :: ys) =
                  1 + max (fuelV x) (fuelElems (y :: ys)) := rfl
              omega)
            rest hrest
          conv_lhs => rw [parseElems.eq_def]
          rw [List.append_assoc, List.cons_append]
          simp [hv, hih]

theorem parseFields_print : ∀ (fs : List (String × Json)), (∀ kv ∈ fs, PV kv.2) → fs ≠ [] →
    Json.wfFields fs = true → ∀ g, fuelFields fs ≤ g → ∀ rest, noDigitHead rest = true →
    parseFields g (printFields fs ++ '}' :: rest) = some (fs, rest) := by
  intro fs
  induction fs with
  | nil => intro _ hne; exact absurd rfl hne
  | cons kv fs ih =>
      intro hpv _ hwf g hg rest hrest
      obtain ⟨k, v⟩ := kv
      have hwx : Json.wf v = true ∧ Json.wfFields fs = true := by
        have he : Json.wfFields ((k, v) :: fs) =
            (keyFresh k fs && Json.wf v && Json.wfFields fs) := rfl
        rw [he] at hwf
        simp at hwf
        tauto
      have hfe : 1 + max (fuelV v) (fuelFields fs) ≤ g := by
        have he : fuelFields ((k, v) :: fs) = 1 + max (fuelV v) (fuelFields fs) := rfl
        rw [he] at hg
        exact hg
      obtain ⟨g', rfl⟩ : ∃ g', g = g' + 1 := ⟨g - 1, by omega⟩
      have hfv : fuelV v ≤ g' := by omega
      cases fs with
      | nil =>
          show parseFields (g' + 1)
              ((printQString k ++ ':' :: printJson v) ++ '}' :: rest) = some ([(k, v)], rest)
          have hv := hpv (k, v) (by simp) hwx.1 g' hfv ('}' :: rest) rfl
          conv_lhs => rw [parseFields.eq_def]
          simp only [printQString, List.cons_append, List.append_assoc, List.nil_append,
            List.singleton_append, List.head?_cons, List.tail_cons]
          rw [parseStringBody_escBody k.data (':' :: (printJson v ++ '}' :: rest))]
          simp [hv]
      | cons f fs' =>
          show parseFields (g' + 1)
              ((printQString k ++ ':' :: printJson v ++ ',' :: printFields (f :: fs')) ++
                '}' :: rest) = some ((k, v) :: f :: fs', rest)
          have hv := hpv (k, v) (by simp) hwx.1 g' hfv
            (',' :: (printFields (f :: fs') ++ '}' :: rest)) rfl
          have hih := ih (fun z hz => hpv z (by simp [hz])) (by simp) hwx.2 g'
            (by
              have he : fuelFields (f :: fs') = 1 + max (fuelV f.2) (fuelFields fs') := by
                obtain ⟨a, b⟩ := f
                rfl
              have he2 : fuelFields ((k, v) :: f :: fs') =
                  1 + max (fuelV v) (fuelFields (f :: fs')) := rfl
              omega)
            rest hrest
          conv_lhs => rw [parseFields.eq_def]
          simp only [printQString, List.cons_append, List.append_assoc, List.nil_append,
            List.singleton_append, List.head?_cons, List.tail_cons]
          rw [parseStringBody_escBody k.data
            (':' :: (printJson v ++ ',' :: (printFields (f :: fs') ++ '}' :: rest)))]
          simp [hv, hih]

theorem printFields_head (f : String × Json) (fs : List (String × Json)) :
    ∃ t, printFields (f :: fs) = '"' :: t := by
  obtain ⟨k, v⟩ := f
  cases fs with
  | nil =>
      refine ⟨escBody k.data ++ '"' :: ':' :: printJson v, ?_⟩
      show printQString k ++ ':' :: printJson v = _
      simp [printQString]
  | cons f' fs' =>
      refine ⟨escBody k.data ++ '"' :: ':' :: (printJson v ++ ',' :: printFields (f' :: fs')), ?_⟩
      show printQString k ++ ':' :: printJson v ++ ',' :: printFields (f' :: fs') = _
      simp [printQString]

theorem parseValue_printJson : ∀ j, PV j := by
  refine Json.indStrong PV ?_ ?_ ?_ ?_ ?_ ?_
  · intro _ f hf rest _
    have h1 : 1 ≤ f := le_trans (by rw [show fuelV Json.jnull = 1 from rfl]) hf
    obtain ⟨g, rfl⟩ : ∃ g, f = g + 1 := ⟨f - 1, by omega⟩
    show parseValue (g + 1) (['n', 'u', 'l', 'l'] ++ rest) = some (Json.jnull, rest)
    conv_lhs => rw [parseValue.eq_def]
    simp
    exact expectChars_append ['u', 'l', 'l'] rest
  · intro b _ f hf rest _
    have h1 : 1 ≤ f := le_trans (by rw [show fuelV (Json.jbool b) = 1 from rfl]) hf
    obtain ⟨g, rfl⟩ : ∃ g, f = g + 1 := ⟨f - 1, by omega⟩
    cases b with
    | true =>
        show parseValue (g + 1) (['t', 'r', 'u', 'e'] ++ rest) = some (Json.jbool true, rest)
        conv_lhs => rw [parseValue.eq_def]
        simp
        exact expectChars_append ['r', 'u', 'e'] rest
    | false =>
        show parseValue (g + 1) (['f', 'a', 'l', 's', 'e'] ++ rest) = some (Json.jbool false, rest)
        conv_lhs => rw [parseValue.eq_def]
        simp
        exact expectChars_append ['a', 'l', 's', 'e'] rest
  · exact pv_num
  · intro s _ f hf rest _
    have h1 : 1 ≤ f := le_trans (by rw [show fuelV (Json.jstr s) = 1 from rfl]) hf
    obtain ⟨g, rfl⟩ : ∃ g, f = g + 1 := ⟨f - 1, by omega⟩
    show parseValue (g + 1) (('"' :: escBody s.data ++ ['"']) ++ rest) = some (Json.jstr s, rest)
    conv_lhs => rw [parseValue.eq_def]
    simp only [List.cons_append, List.append_assoc, List.singleton_append]
    simp [parseStringBody_escBody s.data rest]
  · intro xs hxs hwf f hf rest hrest
    have hwl : Json.wfList xs = true := by
      have he : Json.wf (Json.jarr xs) = Json.wfList xs := rfl
      rw [he] at hwf
      exact hwf
    have hfe : 1 + fuelElems xs ≤ f := by
      have he : fuelV (Json.jarr xs) = 1 + fuelElems xs := rfl
      rw [he] at hf
      exact hf
    obtain ⟨g, rfl⟩ : ∃ g, f = g + 1 := ⟨f - 1, by omega⟩
    cases xs with
    | nil =>
        show parseValue (g + 1) (('[' :: printElems [] ++ [']']) ++ rest) =
          some (Json.jarr [], rest)
        conv_lhs => rw [parseValue.eq_def]
        simp [printElems]
    | cons x xs' =>
        show parseValue (g + 1) (('[' :: printElems (x :: xs') ++ [']']) ++ rest) =
          some (Json.jarr (x :: xs'), rest)
        obtain ⟨c, t, hct, hc1, hc2⟩ := printElems_head x xs'
        have hpe := parseElems_print (x :: xs') hxs (by simp) hwl g (by omega) rest hrest
        conv_lhs => rw [parseValue.eq_def]
        rw [hct] at hpe ⊢
        simp only [List.cons_append, List.append_assoc, List.singleton_append]
        simp only [List.cons_append] at hpe
        simp [hc1, hpe]
  · intro fs hfs hwf f hf rest hrest
    have hwl : Json.wfFields fs = true := by
      have he : Json.wf (Json.jobj fs) = Json.wfFields fs := rfl
      rw [he] at hwf
      exact hwf
    have hfe : 1 + fuelFields fs ≤ f := by
      have he : fuelV (Json.jobj fs) = 1 + fuelFields fs := rfl
      rw [he] at hf
      exact hf
    obtain ⟨g, rfl⟩ : ∃ g, f = g + 1 := ⟨f - 1, by omega⟩
    cases fs with
    | nil =>
        show parseValue (g + 1) (('{' :: printFields [] ++ ['}']) ++ rest) =
          some (Json.jobj [], rest)
        conv_lhs => rw [parseValue.eq_def]
        simp [printFields]
    | cons kv fs' =>
        show parseValue (g + 1) (('{' :: printFields (kv :: fs') ++ ['}']) ++ rest) =
          some (Json.jobj (kv :: fs'), rest)
        obtain ⟨t, hct⟩ := printFields_head kv fs'
        have hpf := parseFields_print (kv :: fs') hfs (by simp) hwl g (by omega) rest hrest
        have hcol : collapseFields (kv :: fs') = kv :: fs' := collapseFields_nodup _ hwl
        conv_lhs => rw [parseValue.eq_def]
        rw [hct] at hpf ⊢
        simp only [List.cons_append, List.append_assoc, List.singleton_append]
        simp only [List.cons_append] at hpf
        simp [hpf, hcol]

theorem printJson_length_pos (j : Json) : 1 ≤ (printJson j).length := by
  obtain ⟨c, t, hct, _, _⟩ := printJson_head j
  rw [hct]
  simp

theorem fuelElems_le_aux (xs : List Json)
    (h : ∀ x ∈ xs, fuelV x ≤ (printJson x).length + 1) :
    fuelElems xs ≤ (printElems xs).length + 2 := by
  induction xs with
  | nil =>
      rw [show fuelElems [] = 1 from rfl, show printElems [] = [] from rfl]
      simp
  | cons x xs ih =>
      have hx := h x (by simp)
      cases xs with
      | nil =>
          rw [show fuelElems [x] = 1 + max (fuelV x) (fuelElems []) from rfl,
            show printElems [x] = printJson x from rfl,
            show fuelElems [] = 1 from rfl]
          have := printJson_length_pos x
          omega
      | cons y ys =>
          have hih := ih (fun z hz => h z (by simp [hz]))
          rw [show fuelElems (x :: y :: ys) = 1 + max (fuelV x) (fuelElems (y :: ys)) from rfl,
            show printElems (x :: y :: ys) = printJson x ++ ',' :: printElems (y :: ys) from rfl]
          simp only [List.length_append, List.length_cons]
          omega

theorem fuelFields_le_aux (fs : List (String × Json))
    (h : ∀ kv ∈ fs, fuelV kv.2 ≤ (printJson kv.2).length + 1) :
    fuelFields fs ≤ (printFields fs).length + 2 := by
  induction fs with
  | nil =>
      rw [show fuelFields [] = 1 from rfl, show printFields [] = [] from rfl]
      simp
  | cons kv fs ih =>
      obtain ⟨k, v⟩ := kv
      have hv : fuelV v ≤ (printJson v).length + 1 := h (k, v) (by simp)
      cases fs with
      | nil =>
          rw [show fuelFields [(k, v)] = 1 + max (fuelV v) (fuelFields []) from rfl,
            show printFields [(k, v)] = printQString k ++ ':' :: printJson v from rfl,
            show fuelFields [] = 1 from rfl]
          simp only [List.length_append, List.length_cons]
          omega
      | cons f fs' =>
          have hih := ih (fun z hz => h z (by simp [hz]))
          obtain ⟨a, b⟩ := f
          rw [show fuelFields ((k, v) :: (a, b) :: fs') =
              1 + max (fuelV v) (fuelFields ((a, b) :: fs')) from rfl,
            show printFields ((k, v) :: (a, b) :: fs') =
              printQString k ++ ':' :: printJson v ++ ',' :: printFields ((a, b) :: fs') from rfl]
          simp only [List.length_append, List.length_cons]
          omega

theorem fuelV_le : ∀ j, fuelV j ≤ (printJson j).length + 1 := by
  refine Json.indStrong (fun j => fuelV j ≤ (printJson j).length + 1) ?_ ?_ ?_ ?_ ?_ ?_
  · simp [show fuelV Json.jnull = 1 from rfl]
  · intro b
    cases b <;> simp [show ∀ b, fuelV (Json.jbool b) = 1 from fun _ => rfl]
  · intro n
    rw [show fuelV (Json.jnum n) = 1 from rfl]
    omega
  · intro s
    rw [show fuelV (Json.jstr s) = 1 from rfl]
    omega
  · intro xs h
    rw [show fuelV (Json.jarr xs) = 1 + fuelElems xs from rfl,
      show printJson (Json.jarr xs) = '[' :: printElems xs ++ [']'] from rfl]
    have := fuelElems_le_aux xs h
    simp only [List.length_cons, List.length_append, List.length_singleton]
    omega
  · intro fs h
    rw [show fuelV (Json.jobj fs) = 1 + fuelFields fs from rfl,
      show printJson (Json.jobj fs) = '{' :: printFields fs ++ ['}'] from rfl]
    have := fuelFields_le_aux fs h
    simp only [List.length_cons, List.length_append, List.length_singleton]
    omega

/-- The parse-print round trip: `JSON.parse (JSON.jstringify j)` recovers
`j` exactly, for every value without repeated object keys. -/
theorem jsonParse_stringify (j : Json) (h : Json.wf j = true) :
    jsonParse (jsonStringify j) = some j := by
  unfold jsonParse jsonStringify
  have hpv := parseValue_printJson j h ((printJson j).length + 1)
    (by have := fuelV_le j; omega) [] rfl
  rw [List.append_nil] at hpv
  show (match parseValue ((printJson j).length + 1) (printJson j) with
    | some (j, []) => some j
    | _ => none) = some j
  rw [hpv]

/-! ## History store -/

theorem jsonStringify_beq_empty (j : Json) : (jsonStringify j == "") = false := by
  apply Bool.eq_false_iff.mpr
  intro hbeq
  have heq : jsonStringify j = "" := eq_of_beq hbeq
  have hd : printJson j = [] := congrArg String.data heq
  have hp := printJson_length_pos j
  rw [hd] at hp
  simp at hp

theorem loadHistoryEffect_stringify (j : Json) (h : Json.wf j = true) :
    loadHistoryEffect (some (jsonStringify j)) = j := by
  simp only [loadHistoryEffect]
  rw [jsonStringify_beq_empty j]
  rw [jsonParse_stringify j h]
  simp

/-- C4: appending a report re-serializes the whole prepended history
(most-recent-first), and re-loading the stored value parses it back
exactly, so the first element of the loaded sequence is the appended
report itself. -/
theorem history_append_roundtrip (r : Json) (hist : List Json)
    (hwf : Json.wf (Json.jarr (r :: hist)) = true) :
    (saveToHistory r hist).1 = r :: hist ∧
    loadHistoryEffect (some (saveToHistory r hist).2) = Json.jarr ((saveToHistory r hist).1) := by
  refine ⟨rfl, ?_⟩
  show loadHistoryEffect (some (jsonStringify (Json.jarr (r :: hist)))) = _
  rw [loadHistoryEffect_stringify _ hwf]
  rfl

theorem history_append_roundtrip_witness :
    Json.wf (Json.jarr [Json.jobj [("id", Json.jstr "r1"), ("title", Json.jstr "T")]]) = true ∧
    ((saveToHistory (Json.jobj [("id", Json.jstr "r1"), ("title", Json.jstr "T")]) []).1 =
      [Json.jobj [("id", Json.jstr "r1"), ("title", Json.jstr "T")]] ∧
    loadHistoryEffect (some (saveToHistory
        (Json.jobj [("id", Json.jstr "r1"), ("title", Json.jstr "T")]) []).2) =
      Json.jarr ((saveToHistory
        (Json.jobj [("id", Json.jstr "r1"), ("title", Json.jstr "T")]) []).1)) :=
  ⟨rfl, history_append_roundtrip _ [] rfl⟩

/-- C5: deletion filters by id inequality (keeping order) and the
specific append-append-delete scenario leaves exactly the other report,
also after re-loading the stored value. -/
theorem history_delete_spec (r1 r2 : Json) (id1 id2 : String)
    (h1 : jsonGetField r1 "id" = some (Json.jstr id1))
    (h2 : jsonGetField r2 "id" = some (Json.jstr id2))
    (hne : id1 ≠ id2)
    (hwf : Json.wf (Json.jarr [r2]) = true) :
    (∀ (hist : List Json) (i : String),
      ((deleteFromHistory i hist).1).Sublist hist ∧
      (∀ r, r ∈ (deleteFromHistory i hist).1 ↔ r ∈ hist ∧ idMatches r i = false)) ∧
    (deleteFromHistory id1 (saveToHistory r2 (saveToHistory r1 []).1).1).1 = [r2] ∧
    loadHistoryEffect
        (some (deleteFromHistory id1 (saveToHistory r2 (saveToHistory r1 []).1).1).2) =
      Json.jarr [r2] := by
  have hm2 : idMatches r2 id1 = false := by
    unfold idMatches
    rw [h2]
    simp
    exact fun h => hne h.symm
  have hm1 : idMatches r1 id1 = true := by
    unfold idMatches
    rw [h1]
    simp
  have hfil : List.filter (fun r => !idMatches r id1) [r2, r1] = [r2] := by
    simp [List.filter, hm1, hm2]
  refine ⟨?_, ?_, ?_⟩
  · intro hist i
    exact ⟨List.filter_sublist _, fun r => by
      simp [deleteFromHistory, List.mem_filter]⟩
  · show (List.filter (fun r => !idMatches r id1) [r2, r1]) = [r2]
    exact hfil
  · show loadHistoryEffect
        (some (jsonStringify (Json.jarr (List.filter (fun r => !idMatches r id1) [r2, r1])))) = _
    rw [hfil, loadHistoryEffect_stringify _ hwf]

theorem history_delete_spec_witness :
    jsonGetField (Json.jobj [("id", Json.jstr "a")]) "id" = some (Json.jstr "a") ∧
    jsonGetField (Json.jobj [("id", Json.jstr "b")]) "id" = some (Json.jstr "b") ∧
    ("a" : String) ≠ "b" ∧
    Json.wf (Json.jarr [Json.jobj [("id", Json.jstr "b")]]) = true ∧
    ((deleteFromHistory "a" (saveToHistory (Json.jobj [("id", Json.jstr "b")])
        (saveToHistory (Json.jobj [("id", Json.jstr "a")]) []).1).1).1 =
      [Json.jobj [("id", Json.jstr "b")]] ∧
    loadHistoryEffect (some (deleteFromHistory "a"
        (saveToHistory (Json.jobj [("id", Json.jstr "b")])
          (saveToHistory (Json.jobj [("id", Json.jstr "a")]) []).1).1).2) =
      Json.jarr [Json.jobj [("id", Json.jstr "b")]]) :=
  ⟨rfl, rfl, by decide, rfl,
    (history_delete_spec (Json.jobj [("id", Json.jstr "a")]) (Json.jobj [("id", Json.jstr "b")])
      "a" "b" rfl rfl (by decide) rfl).2⟩

/-- C6: a stored payload that does not parse (and a blank one) loads as
the empty history, without any error escaping the load. -/
theorem history_corrupt_load (s : String) (hs : jsonParse s = none) :
    loadHistoryEffect (some s) = Json.jarr [] := by
  simp only [loadHistoryEffect]
  split
  · rfl
  · rw [hs]

theorem history_corrupt_load_witness :
    jsonParse "\x7bnot json" = none ∧
    loadHistoryEffect (some "\x7bnot json") = Json.jarr [] :=
  ⟨rfl, history_corrupt_load "\x7bnot json" rfl⟩

/-! ## Grounding-source deduplication -/

theorem mapInsert_mem (m : List (String × GroundingSource)) (k : String)
    (v : GroundingSource) :
    ∀ kv ∈ mapInsert m k v, kv ∈ m ∨ kv = (k, v) := by
  induction m with
  | nil => simp [mapInsert]
  | cons e m ih =>
      obtain ⟨k', v'⟩ := e
      intro kv hkv
      cases hk : k' == k with
      | true =>
          have hkk : k' = k := by simpa using hk
          subst hkk
          simp only [mapInsert, hk, if_pos] at hkv
          rcases List.mem_cons.mp hkv with h | h
          · right
            rw [h]
          · left
            simp [h]
      | false =>
          simp only [mapInsert, hk, Bool.false_eq_true, if_neg] at hkv
          rcases List.mem_cons.mp hkv with h | h
          · left
            simp [h]
          · rcases ih kv h with h' | h'
            · left
              simp [h']
            · right
              exact h'

theorem mapInsert_keys_mem (m : List (String × GroundingSource)) (k : String)
    (v : GroundingSource) :
    ∀ x, x ∈ (mapInsert m k v).map Prod.fst ↔ x ∈ m.map Prod.fst ∨ x = k := by
  induction m with
  | nil => simp [mapInsert]
  | cons e m ih =>
      obtain ⟨k', v'⟩ := e
      intro x
      cases hk : k' == k with
      | true =>
          have hkk : k' = k := by simpa using hk
          subst hkk
          simp only [mapInsert, hk, if_pos]
          simp
          tauto
      | false =>
          simp only [mapInsert, hk, Bool.false_eq_true, if_neg]
          simp [ih x]
          tauto

theorem mapInsert_nodup (m : List (String × GroundingSource)) (k : String)
    (v : GroundingSource) (h : (m.map Prod.fst).Nodup) :
    ((mapInsert m k v).map Prod.fst).Nodup := by
  induction m with
  | nil => simp [mapInsert]
  | cons e m ih =>
      obtain ⟨k', v'⟩ := e
      rw [List.map_cons, List.nodup_cons] at h
      cases hk : k' == k with
      | true =>
          have hkk : k' = k := by simpa using hk
          subst hkk
          simp only [mapInsert, hk, if_pos]
          rw [List.map_cons, List.nodup_cons]
          exact h
      | false =>
          have hkk : k' ≠ k := by simpa using hk
          have hstep : mapInsert ((k', v') :: m) k v = (k', v') :: mapInsert m k v := by
            simp [mapInsert, hk]
          rw [hstep, List.map_cons, List.nodup_cons]
          refine ⟨?_, ih h.2⟩
          intro hmem
          rcases (mapInsert_keys_mem m k v k').mp hmem with h' | h'
          · exact h.1 h'
          · exact hkk h'

theorem mapInsert_filter (u : String) (m : List (String × GroundingSource))
    (k : String) (v : GroundingSource) (hnd : (m.map Prod.fst).Nodup) :
    (mapInsert m k v).filter (fun kv => kv.1 == u) =
      if k = u then [(k, v)] else m.filter (fun kv => kv.1 == u) := by
  induction m with
  | nil =>
      by_cases hku : k = u
      · subst hku
        simp [mapInsert, List.filter_cons]
      · have hb : (k == u) = false := by simp [hku]
        simp [mapInsert, List.filter_cons, hb, hku]
  | cons e m ih =>
      obtain ⟨k', v'⟩ := e
      rw [List.map_cons, List.nodup_cons] at hnd
      cases hk : k' == k with
      | true =>
          have hkk : k' = k := by simpa using hk
          subst hkk
          simp only [mapInsert, hk, if_pos]
          by_cases hku : k' = u
          · subst hku
            have hfil : m.filter (fun kv => kv.1 == k') = [] := by
              apply List.filter_eq_nil_iff.mpr
              intro kv hkv
              have hm : kv.1 ∈ List.map Prod.fst m := List.mem_map_of_mem Prod.fst hkv
              simp
              intro heq
              rw [heq] at hm
              exact hnd.1 hm
            simp [List.filter_cons, hfil]
          · have hbu : (k' == u) = false := by simp [hku]
            simp [List.filter_cons, hbu, hku]
      | false =>
          have hkk : k' ≠ k := by simpa using hk
          simp only [mapInsert, hk, Bool.false_eq_true, if_neg]
          by_cases hku : k = u
          · subst hku
            have hbu : (k' == k) = false := by simp [hkk]
            simp [List.filter_cons, hbu, ih hnd.2]
          · simp [List.filter_cons, ih hnd.2, hku]

theorem dedupe_fold_nodup : ∀ (l : List GroundingSource)
    (m : List (String × GroundingSource)), (m.map Prod.fst).Nodup →
    ((l.foldl (fun m item => mapInsert m item.uri item) m).map Prod.fst).Nodup := by
  intro l
  induction l with
  | nil => intro m h; exact h
  | cons i l ih =>
      intro m h
      exact ih _ (mapInsert_nodup m i.uri i h)

theorem dedupe_fold_inv : ∀ (l : List GroundingSource)
    (m : List (String × GroundingSource)), (∀ kv ∈ m, kv.2.uri = kv.1) →
    ∀ kv ∈ l.foldl (fun m item => mapInsert m item.uri item) m, kv.2.uri = kv.1 := by
  intro l
  induction l with
  | nil => intro m h; exact h
  | cons i l ih =>
      intro m h
      apply ih
      intro kv hkv
      rcases mapInsert_mem m i.uri i kv hkv with h' | h'
      · exact h kv h'
      · rw [h']

theorem dedupe_fold_filter (u : String) : ∀ (l : List GroundingSource)
    (m : List (String × GroundingSource)), (m.map Prod.fst).Nodup →
    (l.foldl (fun m item => mapInsert m item.uri item) m).filter (fun kv => kv.1 == u) =
      (match (l.filter (fun s => s.uri == u)).getLast? with
       | some v => [(u, v)]
       | none => m.filter (fun kv => kv.1 == u)) := by
  intro l
  induction l with
  | nil =>
      intro m _
      rfl
  | cons i l ih =>
      intro m hnd
      show (l.foldl (fun m item => mapInsert m item.uri item)
          (mapInsert m i.uri i)).filter (fun kv => kv.1 == u) = _
      rw [ih (mapInsert m i.uri i) (mapInsert_nodup m i.uri i hnd)]
      cases hlf : l.filter (fun s => s.uri == u) with
      | nil =>
          rw [mapInsert_filter u m i.uri i hnd]
          by_cases hiu : i.uri = u
          · have hbi : (i.uri == u) = true := by simp [hiu]
            simp [List.filter_cons, hbi, hlf, hiu]
          · have hbi : (i.uri == u) = false := by simp [hiu]
            simp [List.filter_cons, hbi, hlf, hiu]
      | cons w ws =>
          have hgl := List.getLast?_eq_getLast (w :: ws) (by simp)
          by_cases hiu : i.uri = u
          · have hbi : (i.uri == u) = true := by simp [hiu]
            simp [List.filter_cons, hbi, hlf, List.getLast?_cons_cons, hgl]
          · have hbi : (i.uri == u) = false := by simp [hiu]
            simp [List.filter_cons, hbi, hlf, hgl]

theorem mapSnd_filter (u : String) (m : List (String × GroundingSource))
    (hinv : ∀ kv ∈ m, kv.2.uri = kv.1) :
    (m.map Prod.snd).filter (fun s => s.uri == u) =
      (m.filter (fun kv => kv.1 == u)).map Prod.snd := by
  induction m with
  | nil => rfl
  | cons e m ih =>
      obtain ⟨k, v⟩ := e
      have hv : v.uri = k := hinv (k, v) (by simp)
      have hrest := ih (fun kv hkv => hinv kv (by simp [hkv]))
      by_cases hku : k = u
      · subst hku
        have hb : (v.uri == k) = true := by simp [hv]
        simp [List.filter_cons, hb, hrest]
      · have hb1 : (v.uri == u) = false := by simp [hv, hku]
        have hb2 : (k == u) = false := by simp [hku]
        simp [List.filter_cons, hb1, hb2, hrest]

theorem dedupeByUri_filter (l : List GroundingSource) (u : String) :
    (dedupeByUri l).filter (fun s => s.uri == u) =
      ((l.filter (fun s => s.uri == u)).getLast?).toList := by
  unfold dedupeByUri
  rw [mapSnd_filter u _ (dedupe_fold_inv l [] (by simp))]
  rw [dedupe_fold_filter u l [] (by simp)]
  cases hlf : (l.filter (fun s => s.uri == u)).getLast? with
  | none => rfl
  | some v => rfl

/-! ## Grounding extraction -/

theorem truthyStr_some (o : Option String) (h : truthyStr o = true) :
    o = some (o.getD "") := by
  cases o with
  | none => simp [truthyStr] at h
  | some s => rfl

theorem extractStep_eq (acc : List GroundingSource) (c : GroundingChunk) :
    extractStep acc c = acc ++ (chunkSource c).toList := by
  unfold extractStep chunkSource
  cases hw : c.web with
  | none => simp
  | some w => cases ht : truthyStr w.uri && truthyStr w.title <;> simp [ht]

theorem extractSources_foldl (cs : List GroundingChunk) :
    ∀ (acc : List GroundingSource),
    cs.foldl extractStep acc = acc ++ cs.filterMap chunkSource := by
  induction cs with
  | nil => intro acc; simp
  | cons c cs ih =>
      intro acc
      rw [List.foldl_cons, extractStep_eq, ih]
      cases hc : chunkSource c <;> simp [List.filterMap_cons, hc]

/-- C10: every extracted source comes from a chunk carrying both a web
uri and a web title; a chunk lacking either (in particular one with a
uri but no title) contributes nothing; and extraction is exactly the
in-order filter-map of the per-chunk contribution. -/
theorem grounding_extraction_spec (cs : List GroundingChunk) :
    extractSources (some cs) = cs.filterMap chunkSource ∧
    (∀ s ∈ extractSources (some cs), ∃ c ∈ cs, ∃ w, c.web = some w ∧
      w.uri = some s.uri ∧ w.title = some s.title) ∧
    (∀ c : GroundingChunk, ∀ w, c.web = some w → w.title = none →
      chunkSource c = none) ∧
    extractSources none = [] := by
  have hfm : extractSources (some cs) = cs.filterMap chunkSource := by
    show cs.foldl extractStep [] = _
    rw [extractSources_foldl cs []]
    rfl
  refine ⟨hfm, ?_, ?_, rfl⟩
  · intro s hs
    rw [hfm] at hs
    obtain ⟨c, hc, hcs⟩ := List.mem_filterMap.mp hs
    refine ⟨c, hc, ?_⟩
    cases hw : c.web with
    | none =>
        have : chunkSource c = none := by
          unfold chunkSource
          rw [hw]
        rw [this] at hcs
        simp at hcs
    | some w =>
        have hcs' : (if truthyStr w.uri && truthyStr w.title then
            some ({ title := w.title.getD "", uri := w.uri.getD "" } : GroundingSource)
          else none) = some s := by
          rw [← hcs]
          unfold chunkSource
          rw [hw]
        cases ht : truthyStr w.uri && truthyStr w.title with
        | false =>
            rw [ht] at hcs'
            simp at hcs'
        | true =>
            rw [ht] at hcs'
            simp only [if_pos] at hcs'
            obtain rfl : s = { title := w.title.getD "", uri := w.uri.getD "" } :=
              (Option.some.inj hcs').symm
            obtain ⟨htu, htt⟩ := Bool.and_eq_true_iff.mp ht
            exact ⟨w, rfl, truthyStr_some w.uri htu, truthyStr_some w.title htt⟩
  · intro c w hw ht
    unfold chunkSource
    rw [hw]
    show (if truthyStr w.uri && truthyStr w.title then
        some ({ title := w.title.getD "", uri := w.uri.getD "" } : GroundingSource)
      else none) = none
    rw [ht]
    simp [truthyStr]

/-! ## Deduplication: the claim theorem -/

/-- C2: for every uri, the deduplicated list keeps exactly the last
extracted source with that uri (and nothing when none has it); in
particular two sources sharing uri `"a"` collapse to the later one. -/
theorem grounding_dedupe_last_wins (l : List GroundingSource) (u : String) :
    (dedupeByUri l).filter (fun s => s.uri == u) =
      ((l.filter (fun s => s.uri == u)).getLast?).toList ∧
    dedupeByUri [{ title := "T1", uri := "a" }, { title := "T2", uri := "a" }] =
      [{ title := "T2", uri := "a" }] :=
  ⟨dedupeByUri_filter l u, rfl⟩

/-! ## generatePoliticalReport: error handling -/

theorem generatePoliticalReport_ok (key topic : String) (hist : List String)
    (resp : ModelResponse) (freshId : String) (now : Nat) :
    generatePoliticalReport (some key) topic hist (Except.ok resp) freshId now =
      (if truthyStr resp.text then
        match jsonParse (stripCodeFences (resp.text.getD "")) with
        | some data =>
            { result := Except.ok (assembleReport data freshId now
                (dedupeByUri (extractSources resp.groundingChunks)))
              stages := [Stage.researching, Stage.analyzing, Stage.formatting]
              requests := 1 }
        | none =>
            { result := Except.error genericFailureMsg
              stages := [Stage.researching, Stage.analyzing, Stage.formatting]
              requests := 1 }
      else
        { result := Except.error genericFailureMsg
          stages := [Stage.researching, Stage.analyzing, Stage.formatting]
          requests := 1 }) := rfl

/-- C8: with no API key configured, both entry points throw the
missing-credential error at call time, before any model request (no
stage is reported, no request issued), and that error is distinct from
the generic failure message. -/
theorem missing_key_fatal (topic : String) (hist : List String)
    (call : Except String ModelResponse) (freshId : String) (now : Nat)
    (ctx : Option String) :
    generatePoliticalReport none topic hist call freshId now =
      { result := Except.error apiKeyMissingMsg, stages := [], requests := 0 } ∧
    (generatePoliticalReport none topic hist call freshId now).requests = 0 ∧
    createChatSession none ctx = Except.error apiKeyMissingMsg ∧
    apiKeyMissingMsg ≠ genericFailureMsg :=
  ⟨rfl, rfl, rfl, by decide⟩

/-- C7: with a key configured, a failed call, an absent or empty
response text, or a response text that (after stripping code fences)
does not parse as JSON all surface as the one generic failure message
rather than a report, and no code path ever issues more than one model
request (no automatic retry). -/
theorem generation_failure_generic (key topic : String) (hist : List String)
    (call : Except String ModelResponse) (freshId : String) (now : Nat)
    (hfail : (∃ e, call = Except.error e) ∨
      (∃ resp, call = Except.ok resp ∧
        (resp.text = none ∨ resp.text = some "" ∨
          (∃ t, resp.text = some t ∧ jsonParse (stripCodeFences t) = none)))) :
    (generatePoliticalReport (some key) topic hist call freshId now).result =
      Except.error genericFailureMsg ∧
    (∀ (apiKey : Option String) (c : Except String ModelResponse),
      (generatePoliticalReport apiKey topic hist c freshId now).requests ≤ 1) := by
  refine ⟨?_, ?_⟩
  · rcases hfail with ⟨e, rfl⟩ | ⟨resp, rfl, hresp⟩
    · rfl
    · rw [generatePoliticalReport_ok]
      rcases hresp with hnone | hempty | ⟨t, hsome, hparse⟩
      · rw [hnone]
        rfl
      · rw [hempty]
        rfl
      · rw [hsome]
        by_cases ht : t = ""
        · subst ht
          rfl
        · have htr : truthyStr (some t) = true := by simp [truthyStr, ht]
          simp [htr, hparse]
  · intro apiKey c
    cases apiKey with
    | none => exact Nat.zero_le 1
    | some k =>
        cases c with
        | error e => exact Nat.le_refl 1
        | ok resp =>
            rw [generatePoliticalReport_ok]
            cases htr : truthyStr resp.text with
            | false => simp [htr]
            | true =>
                simp only [htr, if_pos]
                cases hp : jsonParse (stripCodeFences (resp.text.getD "")) with
                | none => simp [hp]
                | some data => simp [hp]

theorem generation_failure_generic_witness :
    jsonParse (stripCodeFences "nope") = none ∧
    (generatePoliticalReport (some "k") "topic" []
        (Except.ok { text := some "nope", groundingChunks := none }) "id0" 0).result =
      Except.error genericFailureMsg :=
  ⟨rfl, (generation_failure_generic "k" "topic" []
    (Except.ok { text := some "nope", groundingChunks := none }) "id0" 0
    (Or.inr ⟨{ text := some "nope", groundingChunks := none }, rfl,
      Or.inr (Or.inr ⟨"nope", rfl, rfl⟩)⟩)).1⟩

/-! ## generatePoliticalReport: returned report shape (C1) -/

theorem truthyStr_getD_ne (o : Option String) (h : truthyStr o = true) :
    o.getD "" ≠ "" := by
  cases o with
  | none => simp [truthyStr] at h
  | some s =>
      simp [truthyStr] at h
      simpa using h

/-- C1 counterexample: a model response whose JSON payload has an empty
`title` parses successfully, and `generatePoliticalReport` returns the
assembled report with the empty title and no error — the service never
validates field contents. -/
theorem generate_empty_title_counterexample :
    (generatePoliticalReport (some "k") "topic" []
        (Except.ok ⟨some
          "\x7b\"title\":\"\",\"executiveSummary\":\"s\",\"keyInsights\":[],\"sections\":[]\x7d",
          none⟩) "id0" 0).result =
      Except.ok (Json.jobj [("title", Json.jstr ""), ("executiveSummary", Json.jstr "s"),
        ("keyInsights", Json.jarr []), ("sections", Json.jarr []),
        ("id", Json.jstr "id0"), ("createdAt", Json.jnum 0),
        ("sources", Json.jarr [])]) ∧
    jsonGetField (Json.jobj [("title", Json.jstr ""), ("executiveSummary", Json.jstr "s"),
        ("keyInsights", Json.jarr []), ("sections", Json.jarr []),
        ("id", Json.jstr "id0"), ("createdAt", Json.jnum 0),
        ("sources", Json.jarr [])]) "title" = some (Json.jstr "") :=
  ⟨rfl, rfl⟩

/-- C1 (amended): the service returns a report exactly when the call
succeeded with truthy text whose fence-stripped form parses as JSON —
the report being the parsed payload plus the generated `id`,
`createdAt` and deduplicated `sources` — and otherwise fails with the
generic error; no validation of `title` or `executiveSummary` contents
is performed (they are whatever the payload contained). -/
theorem generate_success_shape (key topic : String) (hist : List String)
    (call : Except String ModelResponse) (freshId : String) (now : Nat) :
    (∀ rep, (generatePoliticalReport (some key) topic hist call freshId now).result =
        Except.ok rep →
      ∃ resp t data, call = Except.ok resp ∧ resp.text = some t ∧ t ≠ "" ∧
        jsonParse (stripCodeFences t) = some data ∧
        rep = assembleReport data freshId now
          (dedupeByUri (extractSources resp.groundingChunks))) ∧
    (∀ msg, (generatePoliticalReport (some key) topic hist call freshId now).result =
        Except.error msg → msg = genericFailureMsg) := by
  cases call with
  | error e =>
      constructor
      · intro rep h
        exact absurd h (by simp [generatePoliticalReport])
      · intro msg h
        have : (Except.error genericFailureMsg : Except String Json) =
            Except.error msg := h
        exact (Except.error.inj this).symm
  | ok resp =>
      rw [generatePoliticalReport_ok]
      cases htr : truthyStr resp.text with
      | false => simp [htr]
      | true =>
          have hsome : resp.text = some (resp.text.getD "") := truthyStr_some resp.text htr
          have hne : resp.text.getD "" ≠ "" := truthyStr_getD_ne resp.text htr
          cases hp : jsonParse (stripCodeFences (resp.text.getD "")) with
          | none => simp [htr, hp]
          | some data =>
              simp only [htr, if_pos, hp]
              constructor
              · intro rep h
                have hrep := Except.ok.inj h
                exact ⟨resp, resp.text.getD "", data, rfl, hsome, hne, hp, hrep.symm⟩
              · intro msg h
                simp at h

/-! ## Chat streaming -/

theorem setText_twice (botId x y : String) (m : ChatMessage) :
    (fun m : ChatMessage => if m.id == botId then { m with text := y } else m)
      ((fun m : ChatMessage => if m.id == botId then { m with text := x } else m) m) =
    (if m.id == botId then { m with text := y } else m) := by
  simp only []
  by_cases hb : m.id = botId
  · have hbb : (m.id == botId) = true := by simp [hb]
    rw [if_pos hbb, if_pos hbb,
      if_pos (show (({ m with text := x } : ChatMessage).id == botId) = true from hbb)]
  · have hbb : ¬ ((m.id == botId) = true) := by simp [hb]
    rw [if_neg hbb, if_neg hbb]

theorem setText_id (botId x : String) (msgs : List ChatMessage)
    (hinv : ∀ m ∈ msgs, m.id = botId → m.text = x) :
    msgs.map (fun m => if m.id == botId then { m with text := x } else m) = msgs := by
  rw [show msgs = msgs.map id from (List.map_id msgs).symm]
  rw [List.map_map]
  apply List.map_congr_left
  intro m hm
  by_cases hb : m.id = botId
  · have ht := hinv m (by simpa using hm) hb
    simp only [Function.comp_apply, id_eq]
    rw [if_pos (by simp [hb] : (m.id == botId) = true), ← ht]
  · simp only [Function.comp_apply, id_eq]
    rw [if_neg (by simp [hb])]

theorem streamStep_fold (botId : String) : ∀ (ds : List String) (acc : String)
    (msgs : List ChatMessage), (∀ m ∈ msgs, m.id = botId → m.text = acc) →
    (ds.map Option.some).foldl (streamStep botId) (acc, msgs) =
      (acc ++ concatList ds,
       msgs.map (fun m => if m.id == botId then { m with text := acc ++ concatList ds }
         else m)) := by
  intro ds
  induction ds with
  | nil =>
      intro acc msgs hinv
      simp only [List.map_nil, List.foldl_nil, concatList, String.append_empty]
      rw [setText_id botId acc msgs hinv]
  | cons d ds ih =>
      intro acc msgs hinv
      simp only [List.map_cons, List.foldl_cons]
      cases hd : d == "" with
      | true =>
          have hd' : d = "" := by simpa using hd
          subst hd'
          have hstep : streamStep botId (acc, msgs) (some "") = (acc, msgs) := rfl
          have hcl : concatList ("" :: ds) = concatList ds := rfl
          rw [hstep, hcl]
          exact ih acc msgs hinv
      | false =>
          have hstep : streamStep botId (acc, msgs) (some d) =
              (acc ++ d, msgs.map (fun m => if m.id == botId then { m with text := acc ++ d }
                else m)) := by
            show (if (d == "") = true then ((acc, msgs) : String × List ChatMessage)
              else (acc ++ d, msgs.map (fun m => if m.id == botId then
                { m with text := acc ++ d } else m))) = _
            rw [hd]
            simp
          rw [hstep]
          have hinv' : ∀ m ∈ msgs.map (fun m => if m.id == botId then
              { m with text := acc ++ d } else m), m.id = botId → m.text = acc ++ d := by
            intro m hm
            obtain ⟨m₀, hm₀, rfl⟩ := List.mem_map.mp hm
            by_cases hb : m₀.id = botId
            · intro _
              simp [hb]
            · intro hid
              rw [if_neg (by simp [hb])] at hid
              exact absurd hid hb
          rw [ih (acc ++ d) _ hinv']
          have hcl : concatList (d :: ds) = d ++ concatList ds := rfl
          have hassoc : acc ++ d ++ concatList ds = acc ++ (d ++ concatList ds) :=
            String.append_assoc acc d (concatList ds)
          rw [List.map_map, hcl, hassoc]
          congr 1
          apply List.map_congr_left
          intro m hm
          exact setText_twice botId (acc ++ d) (acc ++ (d ++ concatList ds)) m

theorem setText_skip (botId x : String) (msgs : List ChatMessage)
    (h : ∀ m ∈ msgs, m.id ≠ botId) :
    msgs.map (fun m => if m.id == botId then { m with text := x } else m) = msgs := by
  rw [show msgs = msgs.map id from (List.map_id msgs).symm]
  rw [List.map_map]
  apply List.map_congr_left
  intro m hm
  simp only [Function.comp_apply, id_eq]
  rw [if_neg (by simp [h m (by simpa using hm)])]

/-- C3: a send whose stream completes with the given text deltas
appends exactly the user message and one assistant message whose final
text is the concatenation of the deltas in arrival order, growing the
message count by exactly two; and after any prefix of the stream the
accumulated text is the concatenation of the deltas seen so far (each
increment strictly appends, updating the one placeholder in place). -/
theorem chat_stream_spec (st : ChatState) (now : Nat) (deltas : List String)
    (hin : trimStr st.input ≠ "")
    (hfresh : ∀ m ∈ st.messages, m.id ≠ natToString (now + 1)) :
    (handleSend st now true (Except.ok (deltas.map Option.some))).messages =
      st.messages ++ [⟨natToString now, "user", st.input, now⟩,
        ⟨natToString (now + 1), "model", concatList deltas, now⟩] ∧
    (handleSend st now true (Except.ok (deltas.map Option.some))).messages.length =
      st.messages.length + 2 ∧
    (∀ k : Nat, (((deltas.take k).map Option.some).foldl
        (streamStep (natToString (now + 1)))
        ("", (st.messages ++ [⟨natToString now, "user", st.input, now⟩]) ++
          [⟨natToString (now + 1), "model", "", now⟩])).1 =
      concatList (deltas.take k)) := by
  have hbase : ∀ m ∈ (st.messages ++ [(⟨natToString now, "user", st.input, now⟩ :
      ChatMessage)]) ++ [(⟨natToString (now + 1), "model", "", now⟩ : ChatMessage)],
      m.id = natToString (now + 1) → m.text = "" := by
    intro m hm hid
    rcases List.mem_append.mp hm with hm' | hm'
    · rcases List.mem_append.mp hm' with hm'' | hm''
      · exact absurd hid (hfresh m hm'')
      · have hme : m = ⟨natToString now, "user", st.input, now⟩ := by simpa using hm''
        subst hme
        have := natToString_injective now (now + 1) hid
        omega
    · have hme : m = ⟨natToString (now + 1), "model", "", now⟩ := by simpa using hm'
      subst hme
      rfl
  have hcond : (trimStr st.input == "" || !true) = false := by simp [hin]
  have hms : (handleSend st now true (Except.ok (deltas.map Option.some))).messages =
      ((deltas.map Option.some).foldl (streamStep (natToString (now + 1)))
        ("", (st.messages ++ [⟨natToString now, "user", st.input, now⟩]) ++
          [⟨natToString (now + 1), "model", "", now⟩])).2 := by
    unfold handleSend
    rw [hcond]
    rfl
  rw [streamStep_fold (natToString (now + 1)) deltas "" _ hbase] at hms
  have hbne : natToString now ≠ natToString (now + 1) := by
    intro h
    have := natToString_injective now (now + 1) h
    omega
  have hmap : ((st.messages ++ [(⟨natToString now, "user", st.input, now⟩ :
      ChatMessage)]) ++ [(⟨natToString (now + 1), "model", "", now⟩ : ChatMessage)]).map
      (fun m => if m.id == natToString (now + 1) then
        { m with text := "" ++ concatList deltas } else m) =
      st.messages ++ [⟨natToString now, "user", st.input, now⟩,
        ⟨natToString (now + 1), "model", concatList deltas, now⟩] := by
    rw [List.map_append, List.map_append]
    rw [setText_skip _ _ st.messages hfresh]
    rw [show ([(⟨natToString now, "user", st.input, now⟩ : ChatMessage)]).map
        (fun m => if m.id == natToString (now + 1) then
          { m with text := "" ++ concatList deltas } else m) =
        [(⟨natToString now, "user", st.input, now⟩ : ChatMessage)] from by
      simp only [List.map_cons, List.map_nil]
      rw [if_neg (by simp [hbne])]]
    rw [show ([(⟨natToString (now + 1), "model", "", now⟩ : ChatMessage)]).map
        (fun m => if m.id == natToString (now + 1) then
          { m with text := "" ++ concatList deltas } else m) =
        [(⟨natToString (now + 1), "model", concatList deltas, now⟩ : ChatMessage)] from by
      simp only [List.map_cons, List.map_nil]
      rw [if_pos (by simp)]
      rfl]
    simp
  rw [hmap] at hms
  refine ⟨hms, ?_, ?_⟩
  · rw [hms]
    simp
  · intro k
    rw [streamStep_fold (natToString (now + 1)) (deltas.take k) "" _ hbase]
    rfl

theorem chat_stream_spec_witness :
    trimStr "hello" ≠ "" ∧
    (handleSend ⟨[], "hello", false⟩ 0 true
        (Except.ok (["Hi", " there"].map Option.some))).messages =
      [] ++ [⟨natToString 0, "user", "hello", 0⟩,
        ⟨natToString 1, "model", concatList ["Hi", " there"], 0⟩] :=
  ⟨by decide,
   (chat_stream_spec ⟨[], "hello", false⟩ 0 ["Hi", " there"] (by decide) (by simp)).1⟩

/-! ## Chat session creation: greeting-once -/

/-- C9: with a key configured, recreating the session for a
never-messaged chat synthesizes exactly one greeting; running the
session effect again on the resulting state changes nothing, and the
effect never adds a greeting when the message list is non-empty. -/
theorem greeting_once_spec (k : String) (r : Option ReportInfo)
    (hts : List String) (s₀ : Option ChatSession) :
    ((initChatEffect (some k) r hts none []).2).length = 1 ∧
    (initChatEffect (some k) r hts s₀ (initChatEffect (some k) r hts none []).2).2 =
      (initChatEffect (some k) r hts none []).2 ∧
    (∀ (sess : Option ChatSession) (msgs : List ChatMessage), msgs ≠ [] →
      (initChatEffect (some k) r hts sess msgs).2 = msgs) := by
  refine ⟨rfl, rfl, ?_⟩
  intro sess msgs hne
  unfold initChatEffect createChatSession
  cases msgs with
  | nil => exact absurd rfl hne
  | cons m ms => rfl
